import Mathlib

/-!
Verification of the peak-extraction engine of `src/core/spectrum/peaks.py`.

The engine is embedded shallowly: rationals (`ℚ`) model Python floats, lists
model 1-D numpy arrays, and `Option ℚ` models a float that may be non-finite
(`none` stands for NaN or ±inf; every finite value is `some q`).  Python
`while` loops become structural recursions (a fuel argument bounds loops that
walk rightwards; the fuel is chosen so it can never be exhausted before the
loop's own exit condition fires).  `np.convolve(y, ones(w)/w, mode="same")`
is embedded by its defining formula: output sample `i` is the sum of the
input samples at positions `i + w/2 - k` for `k < w` (missing positions count
as zero-padding), divided by `w`.  Python's stable `list.sort(key, reverse=True)`
is embedded as `List.insertionSort` with the reflexive "has at least as large
a key" relation, which is the unique stable descending sort by key.
-/

/-- Peak polarity label: `"max"` or `"min"` in the source. -/
inductive PKind
  | max
  | min
deriving DecidableEq

/-- `PeakRange` dataclass of `peaks.py`. -/
structure PeakRange where
  kind : PKind
  left : ℚ
  center : ℚ
  right : ℚ
  prominence : ℚ
deriving DecidableEq

/-- Reading `a[i]` on a numpy array, at indices the source keeps in bounds;
out-of-range reads default to `0`. -/
def getQ (l : List ℚ) (i : Nat) : ℚ := l.getD i 0

/-- One output sample of `np.convolve(y, np.ones(w)/w, mode="same")` for an
odd window `w`: the zero-padded sum of the `w` input samples centred at `i`,
divided by `w`. -/
def convOut (y : List ℚ) (w : Nat) (i : Nat) : ℚ :=
  (((List.range w).map fun k => if k ≤ i + w / 2 then getQ y (i + w / 2 - k) else 0).sum)
    / (w : ℚ)

/-- `np.convolve(y, np.ones(w)/w, mode="same")` for odd `w ≤ y.length`. -/
def convolveSameBoxcar (y : List ℚ) (w : Nat) : List ℚ :=
  (List.range y.length).map (convOut y w)

/-- `_smooth` of `peaks.py`: moving-average smoothing.  `window ≤ 1` and
signals shorter than the (odd-adjusted) window are returned unchanged. -/
def _smooth (y : List ℚ) (window : ℤ) : List ℚ :=
  if window ≤ 1 then y
  else
    let w : ℤ := if window % 2 = 0 then window + 1 else window
    if (y.length : ℤ) < w then y
    else convolveSameBoxcar y w.toNat

/-- `_local_maxima_indices` of `peaks.py`: interior indices that are ≥ both
neighbours with at least one strict inequality. -/
def _local_maxima_indices (s : List ℚ) : List Nat :=
  if s.length < 3 then []
  else
    ((List.range (s.length - 2)).filter fun i =>
      decide (getQ s i ≤ getQ s (i + 1) ∧ getQ s (i + 2) ≤ getQ s (i + 1) ∧
        (getQ s i < getQ s (i + 1) ∨ getQ s (i + 2) < getQ s (i + 1)))).map (· + 1)

/-- The loop of `_nearest_local_min_left`, descending from index `j`:
return the first `j > 0` that is a local minimum, else `0`. -/
def nearestLocalMinLeftAux (s : List ℚ) : Nat → Nat
  | 0 => 0
  | j + 1 =>
    if getQ s (j + 1) ≤ getQ s j ∧ getQ s (j + 1) ≤ getQ s (j + 2) then j + 1
    else nearestLocalMinLeftAux s j

/-- `_nearest_local_min_left` of `peaks.py`. -/
def _nearest_local_min_left (s : List ℚ) (i : Nat) : Nat :=
  nearestLocalMinLeftAux s (i - 1)

/-- The loop of `_nearest_local_min_right`, ascending from index `j` while
`j < s.length - 1`; the fuel `s.length` strictly exceeds the number of
iterations the loop can make, so the fuel-exhausted branch is unreachable. -/
def nearestLocalMinRightAux (s : List ℚ) : Nat → Nat → Nat
  | 0, _ => s.length - 1
  | fuel + 1, j =>
    if j < s.length - 1 then
      if getQ s j ≤ getQ s (j - 1) ∧ getQ s j ≤ getQ s (j + 1) then j
      else nearestLocalMinRightAux s fuel (j + 1)
    else s.length - 1

/-- `_nearest_local_min_right` of `peaks.py`. -/
def _nearest_local_min_right (s : List ℚ) (i : Nat) : Nat :=
  nearestLocalMinRightAux s s.length (i + 1)

/-- `_interp_x_at_level` of `peaks.py`: linear interpolation of the
x-coordinate where the segment between samples `i0` and `i1` crosses
`level`; a flat segment returns `x[i0]`. -/
def _interp_x_at_level (x s : List ℚ) (i0 i1 : Nat) (level : ℚ) : ℚ :=
  let x0 := getQ x i0
  let x1 := getQ x i1
  let y0 := getQ s i0
  let y1 := getQ s i1
  if y0 = y1 then x0 else x0 + (level - y0) / (y1 - y0) * (x1 - x0)

/-- The left `while` loop of `_half_prominence_width`: descend from the peak
while above `level` and strictly right of `lmin`. -/
def hpwLeftIdx (s : List ℚ) (lmin : Nat) (level : ℚ) : Nat → Nat
  | 0 => 0
  | li + 1 =>
    if lmin < li + 1 ∧ level < getQ s (li + 1) then hpwLeftIdx s lmin level li
    else li + 1

/-- The right `while` loop of `_half_prominence_width`: ascend while below
`rmin` and above `level`.  The fuel `rmin` suffices: after `rmin` steps the
index is ≥ `rmin` and the loop condition is false anyway. -/
def hpwRightIdxAux (s : List ℚ) (rmin : Nat) (level : ℚ) : Nat → Nat → Nat
  | 0, ri => ri
  | fuel + 1, ri =>
    if ri < rmin ∧ level < getQ s ri then hpwRightIdxAux s rmin level fuel (ri + 1)
    else ri

/-- Entry point of the right half-width walk, starting at the peak index. -/
def hpwRightIdx (s : List ℚ) (rmin : Nat) (level : ℚ) (ri : Nat) : Nat :=
  hpwRightIdxAux s rmin level rmin ri

/-- `_half_prominence_width` of `peaks.py`: the pair `(left_x, right_x)` of
half-prominence crossings around peak `peakI`. -/
def _half_prominence_width (x s : List ℚ) (peakI lminI rminI : Nat)
    (baseline prom : ℚ) : ℚ × ℚ :=
  let level := baseline + prom / 2
  let li := hpwLeftIdx s lminI level peakI
  let leftX := if li = peakI then getQ x peakI else _interp_x_at_level x s li (li + 1) level
  let ri := hpwRightIdx s rminI level peakI
  let rightX := if ri = peakI then getQ x peakI else _interp_x_at_level x s (ri - 1) ri level
  (leftX, rightX)

/-- `np.nanmax` over an all-finite array (`0` on the empty array, which the
source never reaches). -/
def listMax : List ℚ → ℚ
  | [] => 0
  | a :: t => t.foldl max a

/-- `np.nanmin` over an all-finite array. -/
def listMin : List ℚ → ℚ
  | [] => 0
  | a :: t => t.foldl min a

/-- The candidate built from one peak index inside the loop of
`_extract_peaks_from_signal`: `none` when the prominence filter discards it,
otherwise the `(prominence, PeakRange)` pair appended to `candidates`. -/
def candOf (x ss : List ℚ) (minProm : ℚ) (kind : PKind) (peakI : Nat) :
    Option (ℚ × PeakRange) :=
  let lminI := _nearest_local_min_left ss peakI
  let rminI := _nearest_local_min_right ss peakI
  let baseline := max (getQ ss lminI) (getQ ss rminI)
  let prom := getQ ss peakI - baseline
  if prom ≤ 0 ∨ prom < minProm then none
  else
    let lr := _half_prominence_width x ss peakI lminI rminI baseline prom
    some (prom,
      { kind := kind, left := min lr.1 lr.2, center := getQ x peakI,
        right := max lr.1 lr.2, prominence := prom })

/-- "`p` sorts no later than `q`": the key (prominence) of `p` is ≥ that of
`q`.  Sorting by this relation descends on the key. -/
def promDominates (p q : ℚ × PeakRange) : Prop := q.1 ≤ p.1

instance : DecidableRel promDominates := fun p q =>
  inferInstanceAs (Decidable (q.1 ≤ p.1))

instance : IsTotal (ℚ × PeakRange) promDominates :=
  ⟨fun p q => le_total q.1 p.1⟩

instance : IsTrans (ℚ × PeakRange) promDominates :=
  ⟨fun _ _ _ h h2 => le_trans h2 h⟩

/-- Python's stable `candidates.sort(key=fst, reverse=True)`: the unique
stable descending sort by the first component, realised as insertion sort. -/
def sortCandidatesDesc (l : List (ℚ × PeakRange)) : List (ℚ × PeakRange) :=
  List.insertionSort promDominates l

/-- `_extract_peaks_from_signal` of `peaks.py`: smooth, find local maxima,
filter by prominence against the global-range threshold, compute half-widths,
sort descending by prominence, truncate to `top_n`. -/
def _extract_peaks_from_signal (x s : List ℚ) (topN : ℤ) (smoothWindow : ℤ)
    (minPromFrac : ℚ) (kind : PKind) : List PeakRange :=
  let ss := _smooth s smoothWindow
  let idxs := _local_maxima_indices ss
  if idxs.isEmpty then []
  else
    let span := if ss.isEmpty then 0 else listMax ss - listMin ss
    let minProm := if 0 < span then span * minPromFrac else 0
    let cands := idxs.filterMap (candOf x ss minProm kind)
    ((sortCandidatesDesc cands).take (max 0 topN).toNat).map Prod.snd

/-- One sample survives `np.isfinite(x) & np.isfinite(y)` masking iff both
coordinates are finite; the surviving pair is returned. -/
def finitePair : Option ℚ × Option ℚ → Option (ℚ × ℚ)
  | (some a, some b) => some (a, b)
  | _ => none

/-- The finite `(x, y)` samples kept by the masking step of
`extract_top_peaks`. -/
def validPairs (x y : List (Option ℚ)) : List (ℚ × ℚ) :=
  (x.zip y).filterMap finitePair

/-- `sum(p.prominence for p in peaks)`. -/
def promSum (l : List PeakRange) : ℚ := (l.map PeakRange.prominence).sum

/-- The `mode` argument of `extract_top_peaks`. -/
inductive PMode
  | auto
  | max
  | min
deriving DecidableEq

/-- `extract_top_peaks` of `peaks.py`: the orchestration entry point. -/
def extract_top_peaks (x y : List (Option ℚ)) (topN : ℤ) (mode : PMode)
    (smoothWindow : ℤ) (minPromFrac : ℚ) : List PeakRange :=
  if x.length ≠ y.length ∨ x.length < 3 then []
  else
    let pairs := validPairs x y
    let xa := pairs.map Prod.fst
    let ya := pairs.map Prod.snd
    if xa.length < 3 then []
    else
      match mode with
      | .max => _extract_peaks_from_signal xa ya topN smoothWindow minPromFrac .max
      | .min => _extract_peaks_from_signal xa (ya.map Neg.neg) topN smoothWindow minPromFrac .min
      | .auto =>
        let peaksMax := _extract_peaks_from_signal xa ya topN smoothWindow minPromFrac .max
        let peaksMin := _extract_peaks_from_signal xa (ya.map Neg.neg) topN smoothWindow minPromFrac .min
        if promSum peaksMax < promSum peaksMin then peaksMin else peaksMax

/-- Negate a possibly-non-finite y-array (`-y_arr` in the source; the
negation of NaN or ±inf is again non-finite). -/
def negOpt (y : List (Option ℚ)) : List (Option ℚ) :=
  y.map (Option.map fun v => -v)

/-- Relabel a peak record's polarity, keeping every numeric field. -/
def relabel (k : PKind) (p : PeakRange) : PeakRange :=
  { p with kind := k }

/-! ### Helper lemmas about indexing and sums -/

theorem getQ_map_range (f : Nat → ℚ) (n i : Nat) (h : i < n) :
    getQ ((List.range n).map f) i = f i := by
  simp [getQ, List.getD_eq_getElem?_getD, List.getElem?_map, List.getElem?_range h]

theorem getQ_eq_of_lt {l : List ℚ} {i : Nat} (h : i < l.length) : getQ l i = l[i] := by
  simp [getQ, List.getD_eq_getElem?_getD, List.getElem?_eq_getElem h]

theorem sum_map_range_reflect (f : Nat → ℚ) :
    ∀ n, ((List.range n).map fun d => f (n - 1 - d)).sum = ((List.range n).map f).sum
  | 0 => rfl
  | n + 1 => by
    calc ((List.range (n + 1)).map fun d => f (n + 1 - 1 - d)).sum
        = f n + ((List.range n).map fun d => f (n - 1 - d)).sum := by
          rw [List.range_succ_eq_map]
          simp only [List.map_cons, List.sum_cons, List.map_map, Function.comp]
          congr 1
          have hmap : List.map ((fun d => f (n + 1 - 1 - d)) ∘ Nat.succ) (List.range n)
              = List.map (fun d => f (n - 1 - d)) (List.range n) :=
            List.map_congr_left fun d _ => by
              show f (n + 1 - 1 - (d + 1)) = f (n - 1 - d)
              congr 1
              omega
          rw [hmap]
      _ = f n + ((List.range n).map f).sum := by rw [sum_map_range_reflect f n]
      _ = ((List.range (n + 1)).map f).sum := by
          rw [List.range_succ]
          simp only [List.map_append, List.sum_append, List.map_cons, List.map_nil,
            List.sum_cons, List.sum_nil]
          ring

/-! ### Helper lemmas about the smoother -/

theorem _smooth_of_le_one (y : List ℚ) (window : ℤ) (h : window ≤ 1) :
    _smooth y window = y := by
  simp [_smooth, h]

theorem _smooth_length (y : List ℚ) (window : ℤ) :
    (_smooth y window).length = y.length := by
  by_cases h1 : window ≤ 1
  · rw [_smooth_of_le_one _ _ h1]
  · simp only [_smooth, if_neg h1]
    by_cases h2 : (y.length : ℤ) < (if window % 2 = 0 then window + 1 else window)
    · rw [if_pos h2]
    · rw [if_neg h2]
      simp [convolveSameBoxcar]

theorem _smooth_even (y : List ℚ) (window : ℤ) (h : window % 2 = 0) :
    _smooth y window = _smooth y (window + 1) := by
  by_cases h1 : window ≤ 1
  · rw [_smooth_of_le_one _ _ h1, _smooth_of_le_one _ _ (by omega)]
  · simp only [_smooth, if_neg h1, if_neg (show ¬window + 1 ≤ 1 by omega)]
    rw [if_pos h, if_neg (show ¬(window + 1) % 2 = 0 by omega)]

theorem _smooth_short (y : List ℚ) (window : ℤ) (h1 : 1 < window) (h2 : window % 2 = 1)
    (h3 : (y.length : ℤ) < window) : _smooth y window = y := by
  simp only [_smooth, if_neg (show ¬window ≤ 1 by omega)]
  rw [if_neg (show ¬window % 2 = 0 by omega), if_pos h3]

theorem _smooth_conv (y : List ℚ) (window : ℤ) (h1 : 1 < window) (h2 : window % 2 = 1)
    (h3 : window ≤ (y.length : ℤ)) :
    _smooth y window = convolveSameBoxcar y window.toNat := by
  simp only [_smooth, if_neg (show ¬window ≤ 1 by omega)]
  rw [if_neg (show ¬window % 2 = 0 by omega), if_neg (show ¬(y.length : ℤ) < window by omega)]

/-- C7: the smoother is a pure same-length transform: identity for
`window ≤ 1`; an even window is incremented to the next odd one before use;
a signal shorter than the effective window is returned unchanged; otherwise
each output sample is the centred zero-padded boxcar mean of the input. -/
theorem smoother_contract (y : List ℚ) (window : ℤ) :
    (_smooth y window).length = y.length ∧
    (window ≤ 1 → _smooth y window = y) ∧
    (window % 2 = 0 → _smooth y window = _smooth y (window + 1)) ∧
    (1 < window → window % 2 = 1 → (y.length : ℤ) < window → _smooth y window = y) ∧
    (1 < window → window % 2 = 1 → window ≤ (y.length : ℤ) → ∀ i, i < y.length →
      getQ (_smooth y window) i =
        (((List.range window.toNat).map fun d =>
            if window.toNat / 2 ≤ i + d then getQ y (i + d - window.toNat / 2) else 0).sum)
          / (window.toNat : ℚ)) := by
  refine ⟨_smooth_length y window, _smooth_of_le_one y window, _smooth_even y window,
    _smooth_short y window, fun h1 h2 h3 i hi => ?_⟩
  rw [_smooth_conv y window h1 h2 h3]
  unfold convolveSameBoxcar
  rw [getQ_map_range _ _ _ hi]
  unfold convOut
  congr 1
  have hodd : window.toNat % 2 = 1 := by omega
  have hrefl := sum_map_range_reflect
    (fun k => if k ≤ i + window.toNat / 2 then getQ y (i + window.toNat / 2 - k) else 0)
    window.toNat
  rw [← hrefl]
  congr 1
  refine List.map_congr_left fun d hd => ?_
  rw [List.mem_range] at hd
  by_cases hc : window.toNat / 2 ≤ i + d
  · rw [if_pos hc, if_pos (by omega)]
    congr 1
    omega
  · rw [if_neg hc, if_neg (by omega)]

/-- Witness for `smoother_contract` at `y = [7,…,7]` (8 samples),
`window = 7`, output index `0`. -/
theorem smoother_contract_witness :
    getQ (_smooth [7, 7, 7, 7, 7, 7, 7, 7] 7) 0 =
      (((List.range (7 : ℤ).toNat).map fun d =>
          if (7 : ℤ).toNat / 2 ≤ 0 + d then
            getQ [7, 7, 7, 7, 7, 7, 7, 7] (0 + d - (7 : ℤ).toNat / 2) else 0).sum)
        / (((7 : ℤ).toNat : ℚ)) :=
  (smoother_contract [7, 7, 7, 7, 7, 7, 7, 7] 7).2.2.2.2 (by decide) (by decide)
    (by decide) 0 (by decide)

/-- C8: membership characterisation of the local-extremum finder. -/
theorem local_maxima_characterization (s : List ℚ) (i : Nat) :
    (i ∈ _local_maxima_indices s ↔
      1 ≤ i ∧ i + 1 < s.length ∧
      getQ s (i - 1) ≤ getQ s i ∧ getQ s (i + 1) ≤ getQ s i ∧
      (getQ s (i - 1) < getQ s i ∨ getQ s (i + 1) < getQ s i)) ∧
    (s.length < 3 → _local_maxima_indices s = []) := by
  constructor
  · by_cases h3 : s.length < 3
    · rw [_local_maxima_indices, if_pos h3]
      simp only [List.not_mem_nil, false_iff]
      rintro ⟨ha, hb, -⟩
      omega
    · rw [_local_maxima_indices, if_neg h3]
      simp only [List.mem_map, List.mem_filter, List.mem_range, decide_eq_true_eq]
      constructor
      · rintro ⟨j, ⟨hj, hp1, hp2, hp3⟩, rfl⟩
        have e1 : j + 1 - 1 = j := by omega
        have e2 : j + 1 + 1 = j + 2 := by omega
        rw [e1, e2]
        exact ⟨by omega, by omega, hp1, hp2, hp3⟩
      · rintro ⟨h1, h2, ha, hb, hc⟩
        have e1 : i - 1 + 1 = i := by omega
        have e2 : i - 1 + 2 = i + 1 := by omega
        refine ⟨i - 1, ⟨by omega, ?_, ?_, ?_⟩, by omega⟩
        · rw [e1]
          exact ha
        · rw [e1, e2]
          exact hb
        · rw [e1, e2]
          exact hc
  · intro h
    rw [_local_maxima_indices, if_pos h]

/-- Witness for `local_maxima_characterization`: index 1 of `[1,2,1]`. -/
theorem local_maxima_characterization_witness :
    1 ∈ _local_maxima_indices [1, 2, 1] ∧ _local_maxima_indices [1, 2] = [] :=
  ⟨(local_maxima_characterization [1, 2, 1] 1).1.mpr
      (by refine ⟨by decide, by decide, ?_, ?_, ?_⟩ <;> norm_num [getQ]),
    (local_maxima_characterization [1, 2] 0).2 (by decide)⟩

/-! ### Helper lemmas for the flanking-minimum walks -/

theorem nearestLocalMinLeftAux_le (s : List ℚ) : ∀ j, nearestLocalMinLeftAux s j ≤ j
  | 0 => Nat.le_refl 0
  | j + 1 => by
    unfold nearestLocalMinLeftAux
    split
    · exact Nat.le_refl _
    · exact Nat.le_trans (nearestLocalMinLeftAux_le s j) (by omega)

theorem nearestLocalMinRightAux_le (s : List ℚ) :
    ∀ fuel j, nearestLocalMinRightAux s fuel j ≤ s.length - 1
  | 0, _ => Nat.le_refl _
  | fuel + 1, j => by
    unfold nearestLocalMinRightAux
    split
    · split
      · omega
      · exact nearestLocalMinRightAux_le s fuel (j + 1)
    · exact Nat.le_refl _

theorem nearestLocalMinRightAux_ge (s : List ℚ) :
    ∀ fuel j, nearestLocalMinRightAux s fuel j = s.length - 1 ∨
      j ≤ nearestLocalMinRightAux s fuel j
  | 0, _ => Or.inl rfl
  | fuel + 1, j => by
    unfold nearestLocalMinRightAux
    split
    · split
      · exact Or.inr (Nat.le_refl _)
      · rcases nearestLocalMinRightAux_ge s fuel (j + 1) with h | h
        · exact Or.inl h
        · exact Or.inr (by omega)
    · exact Or.inl rfl

/-- C9: for an interior candidate index `i`, the left walk lands strictly
left of `i` and the right walk lands strictly right of `i` but within the
signal; both walks are total functions, so they always terminate. -/
theorem flanking_min_walk_bounds (s : List ℚ) (i : Nat) (h1 : 1 ≤ i)
    (h2 : i + 1 < s.length) :
    _nearest_local_min_left s i < i ∧
    i < _nearest_local_min_right s i ∧
    _nearest_local_min_right s i ≤ s.length - 1 := by
  refine ⟨?_, ?_, nearestLocalMinRightAux_le s s.length (i + 1)⟩
  · have h := nearestLocalMinLeftAux_le s (i - 1)
    unfold _nearest_local_min_left
    omega
  · unfold _nearest_local_min_right
    rcases nearestLocalMinRightAux_ge s s.length (i + 1) with h | h
    · omega
    · omega

/-- Witness for `flanking_min_walk_bounds` on `[1,2,1]` at `i = 1`. -/
theorem flanking_min_walk_bounds_witness :
    _nearest_local_min_left [1, 2, 1] 1 < 1 ∧
    1 < _nearest_local_min_right [1, 2, 1] 1 ∧
    _nearest_local_min_right [1, 2, 1] 1 ≤ ([1, 2, 1] : List ℚ).length - 1 :=
  flanking_min_walk_bounds [1, 2, 1] 1 (by decide) (by decide)

/-! ### Helper lemmas about the stable descending sort -/

theorem orderedInsert_filter_key (p : ℚ × PeakRange) (l : List (ℚ × PeakRange)) (k : ℚ) :
    (List.orderedInsert promDominates p l).filter (fun q => decide (q.1 = k)) =
      if p.1 = k then p :: l.filter (fun q => decide (q.1 = k))
      else l.filter (fun q => decide (q.1 = k)) := by
  induction l with
  | nil =>
    by_cases hp : p.1 = k
    · simp [List.orderedInsert, List.filter, hp]
    · simp [List.orderedInsert, List.filter, hp]
  | cons q t ih =>
    by_cases hpq : promDominates p q
    · rw [List.orderedInsert, if_pos hpq]
      by_cases hp : p.1 = k
      · simp [List.filter_cons, hp]
      · simp [List.filter_cons, hp]
    · rw [List.orderedInsert, if_neg hpq]
      have hne : ¬(q.1 = k ∧ p.1 = k) := by
        rintro ⟨h1, h2⟩
        exact hpq (by rw [promDominates, h1, h2])
      by_cases hq : q.1 = k
      · have hp : ¬p.1 = k := fun h => hne ⟨hq, h⟩
        simp [List.filter_cons, hq, hp, ih]
      · by_cases hp : p.1 = k
        · simp [List.filter_cons, hq, hp, ih]
        · simp [List.filter_cons, hq, hp, ih]

theorem sortCandidatesDesc_filter_key (l : List (ℚ × PeakRange)) (k : ℚ) :
    (sortCandidatesDesc l).filter (fun q => decide (q.1 = k)) =
      l.filter (fun q => decide (q.1 = k)) := by
  induction l with
  | nil => rfl
  | cons p t ih =>
    show (List.orderedInsert promDominates p (sortCandidatesDesc t)).filter _ = _
    rw [orderedInsert_filter_key, ih]
    by_cases hp : p.1 = k
    · simp [List.filter_cons, hp]
    · simp [List.filter_cons, hp]

theorem sortCandidatesDesc_pairwise (l : List (ℚ × PeakRange)) :
    List.Pairwise promDominates (sortCandidatesDesc l) :=
  List.sorted_insertionSort promDominates l

theorem mem_sortCandidatesDesc {p : ℚ × PeakRange} {l : List (ℚ × PeakRange)} :
    p ∈ sortCandidatesDesc l ↔ p ∈ l :=
  List.mem_insertionSort promDominates

/-! ### Helper lemmas about candidates -/

theorem candOf_some_fields {x ss : List ℚ} {minProm : ℚ} {kind : PKind} {peakI : Nat}
    {q : ℚ} {pr : PeakRange} (h : candOf x ss minProm kind peakI = some (q, pr)) :
    pr.prominence = q ∧ 0 < q ∧ minProm ≤ q ∧ pr.left ≤ pr.right ∧ pr.kind = kind := by
  simp only [candOf] at h
  split at h
  · exact Option.noConfusion h
  · next hterm =>
    push_neg at hterm
    simp only [Option.some.injEq, Prod.mk.injEq] at h
    obtain ⟨hq, hpr⟩ := h
    subst hq
    subst hpr
    exact ⟨rfl, hterm.1, hterm.2, min_le_max, rfl⟩

theorem mem_cands_fields {x ss : List ℚ} {minProm : ℚ} {kind : PKind}
    {idxs : List Nat} {p : ℚ × PeakRange}
    (h : p ∈ idxs.filterMap (candOf x ss minProm kind)) :
    p.2.prominence = p.1 ∧ 0 < p.1 ∧ p.2.left ≤ p.2.right ∧ p.2.kind = kind := by
  obtain ⟨i, _, hcand⟩ := List.mem_filterMap.mp h
  obtain ⟨q, pr⟩ := p
  have hf := candOf_some_fields hcand
  exact ⟨hf.1, hf.2.1, hf.2.2.2.1, hf.2.2.2.2⟩

/-! ### Structural lemmas about the extraction pipeline -/

theorem _extract_mem_fields {x s : List ℚ} {topN w : ℤ} {r : ℚ} {kind : PKind}
    {pr : PeakRange} (h : pr ∈ _extract_peaks_from_signal x s topN w r kind) :
    pr.left ≤ pr.right ∧ 0 < pr.prominence ∧ pr.kind = kind := by
  simp only [_extract_peaks_from_signal] at h
  split at h
  · exact absurd h (List.not_mem_nil pr)
  · obtain ⟨p, hp, rfl⟩ := List.mem_map.mp h
    have hp2 : p ∈ sortCandidatesDesc _ := List.take_subset _ _ hp
    have hp3 := mem_sortCandidatesDesc.mp hp2
    have hf := mem_cands_fields hp3
    exact ⟨hf.2.2.1, by rw [hf.1]; exact hf.2.1, hf.2.2.2⟩

theorem _extract_pairwise (x s : List ℚ) (topN w : ℤ) (r : ℚ) (kind : PKind) :
    List.Pairwise (fun a b : PeakRange => b.prominence ≤ a.prominence)
      (_extract_peaks_from_signal x s topN w r kind) := by
  simp only [_extract_peaks_from_signal]
  split
  · exact List.Pairwise.nil
  · rw [List.pairwise_map]
    refine List.Pairwise.imp_of_mem ?_
      (List.Pairwise.sublist (List.take_sublist _ _) (sortCandidatesDesc_pairwise _))
    intro p q hp hq hR
    have hpf := mem_cands_fields (mem_sortCandidatesDesc.mp (List.take_subset _ _ hp))
    have hqf := mem_cands_fields (mem_sortCandidatesDesc.mp (List.take_subset _ _ hq))
    rw [hpf.1, hqf.1]
    exact hR

theorem _extract_length_le (x s : List ℚ) (topN w : ℤ) (r : ℚ) (kind : PKind) :
    (_extract_peaks_from_signal x s topN w r kind).length ≤ (max 0 topN).toNat := by
  simp only [_extract_peaks_from_signal]
  split
  · exact Nat.zero_le _
  · rw [List.length_map]
    exact List.length_take_le _ _

theorem _extract_of_topN_nonpos (x s : List ℚ) (topN w : ℤ) (r : ℚ) (kind : PKind)
    (h : topN ≤ 0) : _extract_peaks_from_signal x s topN w r kind = [] := by
  simp only [_extract_peaks_from_signal]
  split
  · rfl
  · rw [show (max 0 topN).toNat = 0 by omega, List.take_zero, List.map_nil]

/-- Every run of `extract_top_peaks` is either empty or one single-polarity
extraction over the valid finite pairs. -/
theorem extract_top_peaks_cases (x y : List (Option ℚ)) (topN : ℤ) (mode : PMode)
    (w : ℤ) (r : ℚ) :
    extract_top_peaks x y topN mode w r = [] ∨
    ∃ s kind, extract_top_peaks x y topN mode w r =
      _extract_peaks_from_signal ((validPairs x y).map Prod.fst) s topN w r kind := by
  by_cases h1 : x.length ≠ y.length ∨ x.length < 3
  · rw [extract_top_peaks, if_pos h1]
    exact Or.inl rfl
  · rw [extract_top_peaks, if_neg h1]
    by_cases h2 : ((validPairs x y).map Prod.fst).length < 3
    · simp only [if_pos h2]
      cases mode <;> exact Or.inl trivial
    · simp only [if_neg h2]
      cases mode with
      | max => exact Or.inr ⟨_, _, rfl⟩
      | min => exact Or.inr ⟨_, _, rfl⟩
      | auto =>
        by_cases h3 :
            promSum (_extract_peaks_from_signal ((validPairs x y).map Prod.fst)
                ((validPairs x y).map Prod.snd) topN w r PKind.max) <
              promSum (_extract_peaks_from_signal ((validPairs x y).map Prod.fst)
                (((validPairs x y).map Prod.snd).map Neg.neg) topN w r PKind.min)
        · simp only [if_pos h3]
          exact Or.inr ⟨_, _, rfl⟩
        · simp only [if_neg h3]
          exact Or.inr ⟨_, _, rfl⟩

theorem extract_top_peaks_of_few_valid (x y : List (Option ℚ)) (topN : ℤ) (mode : PMode)
    (w : ℤ) (r : ℚ) (h : (validPairs x y).length < 3) :
    extract_top_peaks x y topN mode w r = [] := by
  by_cases h1 : x.length ≠ y.length ∨ x.length < 3
  · rw [extract_top_peaks, if_pos h1]
  · rw [extract_top_peaks, if_neg h1]
    have h2 : ((validPairs x y).map Prod.fst).length < 3 := by
      rw [List.length_map]
      exact h
    simp only [if_pos h2]

/-- C6: the ranker/selector returns at most `top_n` records, in non-increasing
prominence order; non-positive `top_n` or fewer than 3 valid samples give an
empty result; and the sort is stable: the records of any fixed prominence
keep their original (ascending-sample-index) order. -/
theorem ranker_contract :
    (∀ (x y : List (Option ℚ)) (topN : ℤ) (mode : PMode) (w : ℤ) (r : ℚ),
      (extract_top_peaks x y topN mode w r).length ≤ (max 0 topN).toNat) ∧
    (∀ (x y : List (Option ℚ)) (topN : ℤ) (mode : PMode) (w : ℤ) (r : ℚ),
      List.Pairwise (fun a b : PeakRange => b.prominence ≤ a.prominence)
        (extract_top_peaks x y topN mode w r)) ∧
    (∀ (x y : List (Option ℚ)) (topN : ℤ) (mode : PMode) (w : ℤ) (r : ℚ),
      topN ≤ 0 → extract_top_peaks x y topN mode w r = []) ∧
    (∀ (x y : List (Option ℚ)) (topN : ℤ) (mode : PMode) (w : ℤ) (r : ℚ),
      (validPairs x y).length < 3 → extract_top_peaks x y topN mode w r = []) ∧
    (∀ (l : List (ℚ × PeakRange)) (k : ℚ),
      (sortCandidatesDesc l).filter (fun q => decide (q.1 = k)) =
        l.filter (fun q => decide (q.1 = k))) := by
  refine ⟨fun x y topN mode w r => ?_, fun x y topN mode w r => ?_,
    fun x y topN mode w r h => ?_, extract_top_peaks_of_few_valid,
    sortCandidatesDesc_filter_key⟩
  · rcases extract_top_peaks_cases x y topN mode w r with hc | ⟨s, kind, hc⟩
    · rw [hc]
      exact Nat.zero_le _
    · rw [hc]
      exact _extract_length_le _ _ _ _ _ _
  · rcases extract_top_peaks_cases x y topN mode w r with hc | ⟨s, kind, hc⟩
    · rw [hc]
      exact List.Pairwise.nil
    · rw [hc]
      exact _extract_pairwise _ _ _ _ _ _
  · rcases extract_top_peaks_cases x y topN mode w r with hc | ⟨s, kind, hc⟩
    · exact hc
    · rw [hc]
      exact _extract_of_topN_nonpos _ _ _ _ _ _ h

/-- Witness for `ranker_contract`: `top_n = 0` and a 1-sample input both
yield the empty result. -/
theorem ranker_contract_witness :
    extract_top_peaks [some 0, some 1, some 2] [some 1, some 2, some 1] 0 .auto 7 (1/100) = [] ∧
    extract_top_peaks [some 0] [some 1] 5 .auto 7 (1/100) = [] :=
  ⟨ranker_contract.2.2.1 _ _ _ _ _ _ (by decide),
    ranker_contract.2.2.2.1 _ _ _ _ _ _ (by decide)⟩

/-- C10: every returned `PeakRange` has normalised bounds `left ≤ right` and
strictly positive prominence. -/
theorem peak_range_validity (x y : List (Option ℚ)) (topN : ℤ) (mode : PMode)
    (w : ℤ) (r : ℚ) (pr : PeakRange) (h : pr ∈ extract_top_peaks x y topN mode w r) :
    pr.left ≤ pr.right ∧ 0 < pr.prominence := by
  rcases extract_top_peaks_cases x y topN mode w r with hc | ⟨s, kind, hc⟩
  · rw [hc] at h
    exact absurd h (List.not_mem_nil pr)
  · rw [hc] at h
    have hf := _extract_mem_fields h
    exact ⟨hf.1, hf.2.1⟩

/-- Shared concrete evaluation: on `x = [0,1,2]`, `y = [1,2,1]` with
`top_n = 5`, `mode = auto`, ratio `1/100`, and any window for which the
3-sample signals are returned unsmoothed, the engine finds the single peak
at index 1 with prominence 1 and interpolated half-max range `[1/2, 3/2]`. -/
theorem extract121_eval (w : ℤ) (h1 : _smooth [1, 2, 1] w = [1, 2, 1])
    (h2 : _smooth [-1, -2, -1] w = [-1, -2, -1]) :
    extract_top_peaks [some 0, some 1, some 2] [some 1, some 2, some 1] 5 .auto w (1/100) =
      [{ kind := .max, left := 1/2, center := 1, right := 3/2, prominence := 1 }] := by
  have hv : validPairs [some 0, some 1, some 2] [some 1, some 2, some 1] =
      [(0, 1), (1, 2), (2, 1)] := by
    simp [validPairs, finitePair]
  have hmax : _extract_peaks_from_signal [0, 1, 2] [1, 2, 1] 5 w (1/100) .max =
      [{ kind := .max, left := 1/2, center := 1, right := 3/2, prominence := 1 }] := by
    have hm : _local_maxima_indices [(1 : ℚ), 2, 1] = [1] := by
      norm_num [_local_maxima_indices, getQ, List.range_succ, List.filter]
    have hc : candOf [0, 1, 2] [1, 2, 1] (1/100) .max 1 =
        some (1, { kind := .max, left := 1/2, center := 1, right := 3/2, prominence := 1 }) := by
      norm_num [candOf, _nearest_local_min_left, nearestLocalMinLeftAux,
        _nearest_local_min_right, nearestLocalMinRightAux, _half_prominence_width,
        hpwLeftIdx, hpwRightIdx, hpwRightIdxAux, _interp_x_at_level, getQ]
    rw [_extract_peaks_from_signal, h1, hm]
    norm_num [listMax, listMin, hc, sortCandidatesDesc, List.insertionSort, List.orderedInsert,
      List.filterMap_cons, List.filterMap_nil, show (5 : ℤ).toNat = 5 from rfl]
  have hmin : _extract_peaks_from_signal [0, 1, 2] [-1, -2, -1] 5 w (1/100) .min = [] := by
    have hm : _local_maxima_indices [(-1 : ℚ), -2, -1] = [] := by
      norm_num [_local_maxima_indices, getQ, List.range_succ, List.filter]
    rw [_extract_peaks_from_signal, h2, hm]
    norm_num
  rw [extract_top_peaks]
  norm_num [hv, promSum]
  rw [hmax, hmin]
  norm_num

/-- Witness for `peak_range_validity` on the concrete `[1,2,1]` run. -/
theorem peak_range_validity_witness :
    ({ kind := .max, left := 1/2, center := 1, right := 3/2, prominence := 1 } : PeakRange).left ≤
      ({ kind := .max, left := 1/2, center := 1, right := 3/2, prominence := 1 } : PeakRange).right ∧
    0 < ({ kind := .max, left := 1/2, center := 1, right := 3/2, prominence := 1 } : PeakRange).prominence :=
  peak_range_validity [some 0, some 1, some 2] [some 1, some 2, some 1] 5 .auto 7 (1/100) _
    (by rw [extract121_eval 7 (by norm_num [_smooth]) (by norm_num [_smooth])]
        exact List.mem_singleton_self _)

/-- C4: auto mode runs the max-polarity and min-polarity extractions with
identical parameters and returns the min set exactly when its total
prominence is strictly greater; an exact tie returns the max set. -/
theorem auto_mode_polarity_selection (x y : List (Option ℚ)) (topN : ℤ) (w : ℤ) (r : ℚ) :
    extract_top_peaks x y topN .auto w r =
      if promSum (extract_top_peaks x y topN .max w r) <
          promSum (extract_top_peaks x y topN .min w r)
      then extract_top_peaks x y topN .min w r
      else extract_top_peaks x y topN .max w r := by
  by_cases h1 : x.length ≠ y.length ∨ x.length < 3
  · simp only [extract_top_peaks, if_pos h1]
    simp
  · simp only [extract_top_peaks, if_neg h1]
    by_cases h2 : ((validPairs x y).map Prod.fst).length < 3
    · simp only [if_pos h2]
      simp
    · simp only [if_pos, if_neg h2]

/-! ### Helper lemmas for polarity relabelling -/

theorem finitePair_negOpt (a b : Option ℚ) :
    finitePair (a, Option.map (fun v => -v) b) =
      (finitePair (a, b)).map (Prod.map id Neg.neg) := by
  cases a <;> cases b <;> rfl

theorem validPairs_negOpt (x y : List (Option ℚ)) :
    validPairs x (negOpt y) = (validPairs x y).map (Prod.map id Neg.neg) := by
  unfold validPairs negOpt
  rw [List.zip_map_right, List.filterMap_map, List.map_filterMap]
  congr 1
  funext p
  obtain ⟨a, b⟩ := p
  exact finitePair_negOpt a b

theorem candOf_relabel (x ss : List ℚ) (m : ℚ) (k : PKind) (i : Nat) :
    candOf x ss m k i = Option.map (Prod.map id (relabel k)) (candOf x ss m .max i) := by
  simp only [candOf]
  split
  · rfl
  · rfl

theorem filterMap_candOf_relabel (x ss : List ℚ) (m : ℚ) (k : PKind) (idxs : List Nat) :
    idxs.filterMap (candOf x ss m k) =
      (idxs.filterMap (candOf x ss m .max)).map (Prod.map id (relabel k)) := by
  rw [List.map_filterMap]
  congr 1
  funext i
  exact candOf_relabel x ss m k i

theorem orderedInsert_map_relabel (k : PKind) (p : ℚ × PeakRange)
    (l : List (ℚ × PeakRange)) :
    List.orderedInsert promDominates (Prod.map id (relabel k) p)
        (l.map (Prod.map id (relabel k))) =
      (List.orderedInsert promDominates p l).map (Prod.map id (relabel k)) := by
  induction l with
  | nil => rfl
  | cons q t ih =>
    simp only [List.map_cons, List.orderedInsert]
    by_cases h : promDominates p q
    · rw [if_pos h,
        if_pos (show promDominates (Prod.map id (relabel k) p) (Prod.map id (relabel k) q) from h)]
      simp
    · rw [if_neg h,
        if_neg (show ¬promDominates (Prod.map id (relabel k) p) (Prod.map id (relabel k) q) from h)]
      simp only [List.map_cons, ih]

theorem sortCandidatesDesc_map_relabel (k : PKind) (l : List (ℚ × PeakRange)) :
    sortCandidatesDesc (l.map (Prod.map id (relabel k))) =
      (sortCandidatesDesc l).map (Prod.map id (relabel k)) := by
  induction l with
  | nil => rfl
  | cons p t ih =>
    show List.orderedInsert promDominates _ (sortCandidatesDesc (t.map _)) = _
    rw [ih, orderedInsert_map_relabel]
    rfl

theorem _extract_relabel (x s : List ℚ) (topN w : ℤ) (r : ℚ) (k : PKind) :
    _extract_peaks_from_signal x s topN w r k =
      (_extract_peaks_from_signal x s topN w r .max).map (relabel k) := by
  simp only [_extract_peaks_from_signal]
  split
  · rfl
  · rw [filterMap_candOf_relabel, sortCandidatesDesc_map_relabel, ← List.map_take,
      List.map_map, List.map_map]
    congr 1

/-- C5: min mode is exactly max mode on the negated signal with the polarity
label rewritten from `max` to `min`; every numeric field agrees. -/
theorem min_mode_negation_equiv (x y : List (Option ℚ)) (topN : ℤ) (w : ℤ) (r : ℚ) :
    extract_top_peaks x y topN .min w r =
      (extract_top_peaks x (negOpt y) topN .max w r).map (relabel .min) := by
  have hlen : (negOpt y).length = y.length := List.length_map y _
  by_cases h1 : x.length ≠ y.length ∨ x.length < 3
  · rw [extract_top_peaks, if_pos h1, extract_top_peaks,
      if_pos (show x.length ≠ (negOpt y).length ∨ x.length < 3 by rw [hlen]; exact h1)]
    rfl
  · rw [extract_top_peaks, if_neg h1, extract_top_peaks,
      if_neg (show ¬(x.length ≠ (negOpt y).length ∨ x.length < 3) by rw [hlen]; exact h1)]
    have hfst : ((validPairs x y).map (Prod.map id Neg.neg)).map Prod.fst =
        (validPairs x y).map Prod.fst := by
      rw [List.map_map]
      congr 1
    have hsnd : ((validPairs x y).map (Prod.map id Neg.neg)).map Prod.snd =
        ((validPairs x y).map Prod.snd).map Neg.neg := by
      rw [List.map_map, List.map_map]
      congr 1
    simp only [validPairs_negOpt, hfst, hsnd]
    by_cases h2 : ((validPairs x y).map Prod.fst).length < 3
    · simp only [if_pos h2]
      rfl
    · simp only [if_neg h2]
      exact _extract_relabel _ _ _ _ _ _

/-- C1 counterexample: on `x=[0,1,2]`, `y=[1,2,1]` with default parameters
the result is NOT the degenerate single-point range `[1,1]` claimed by the
spec: the half-width walk always leaves the peak sample (the peak value
exceeds the half-max level whenever prominence is positive), so both bounds
are interpolated. -/
theorem scenario_D_counterexample :
    extract_top_peaks [some 0, some 1, some 2] [some 1, some 2, some 1] 5 .auto 7 (1/100) ≠
      [{ kind := .max, left := 1, center := 1, right := 1, prominence := 1 }] := by
  rw [extract121_eval 7 (by norm_num [_smooth]) (by norm_num [_smooth])]
  intro hcontra
  simp only [List.cons.injEq, PeakRange.mk.injEq] at hcontra
  norm_num at hcontra

/-- C1 amended: same input, default parameters: exactly one max-kind
`PeakRange` with center `1`, prominence `1` (baseline 1), but with the
half-max crossings interpolated to `left = 1/2` and `right = 3/2`. -/
theorem scenario_D_amended :
    extract_top_peaks [some 0, some 1, some 2] [some 1, some 2, some 1] 5 .auto 7 (1/100) =
      [{ kind := .max, left := 1/2, center := 1, right := 3/2, prominence := 1 }] :=
  extract121_eval 7 (by norm_num [_smooth]) (by norm_num [_smooth])

/-- C2 counterexample: a negative `smooth_window` does not raise any error:
on a perfectly valid input the call returns the ordinary extraction result
(the window is silently treated as "no smoothing"). -/
theorem negative_window_counterexample :
    extract_top_peaks [some 0, some 1, some 2] [some 1, some 2, some 1] 5 .auto (-5) (1/100) =
      [{ kind := .max, left := 1/2, center := 1, right := 3/2, prominence := 1 }] :=
  extract121_eval (-5) (by norm_num [_smooth]) (by norm_num [_smooth])

/-- C2 amended: `extract_top_peaks` never fails on a negative (or any ≤ 1)
`smooth_window`; such a window is silently coerced to "no smoothing", i.e.
the call behaves exactly like `smooth_window = 1`. -/
theorem negative_window_silent (x y : List (Option ℚ)) (topN : ℤ) (mode : PMode)
    (w : ℤ) (r : ℚ) (h : w ≤ 1) :
    extract_top_peaks x y topN mode w r = extract_top_peaks x y topN mode 1 r := by
  have he : ∀ (xa s : List ℚ) (k : PKind),
      _extract_peaks_from_signal xa s topN w r k =
        _extract_peaks_from_signal xa s topN 1 r k := by
    intro xa s k
    simp only [_extract_peaks_from_signal, _smooth_of_le_one _ _ h,
      _smooth_of_le_one _ _ (le_refl (1 : ℤ))]
  rw [extract_top_peaks, extract_top_peaks]
  by_cases h1 : x.length ≠ y.length ∨ x.length < 3
  · rw [if_pos h1, if_pos h1]
  · rw [if_neg h1, if_neg h1]
    simp only [he]

/-- Witness for `negative_window_silent` at `w = -5`. -/
theorem negative_window_silent_witness :
    extract_top_peaks [some 0, some 1, some 2] [some 1, some 2, some 1] 5 .auto (-5) (1/100) =
      extract_top_peaks [some 0, some 1, some 2] [some 1, some 2, some 1] 5 .auto 1 (1/100) :=
  negative_window_silent _ _ _ _ _ _ (by decide)

/-! ### Constant (zero-variance) signals -/

theorem _local_maxima_indices_const (s : List ℚ) (c : ℚ) (h : ∀ v ∈ s, v = c) :
    _local_maxima_indices s = [] := by
  rw [_local_maxima_indices]
  split
  · rfl
  · next h3 =>
    rw [List.map_eq_nil_iff, List.filter_eq_nil_iff]
    intro i hi
    rw [List.mem_range] at hi
    have e0 : getQ s i = c := by
      rw [getQ_eq_of_lt (by omega)]
      exact h _ (List.getElem_mem _)
    have e1 : getQ s (i + 1) = c := by
      rw [getQ_eq_of_lt (by omega)]
      exact h _ (List.getElem_mem _)
    have e2 : getQ s (i + 2) = c := by
      rw [getQ_eq_of_lt (by omega)]
      exact h _ (List.getElem_mem _)
    simp [e0, e1, e2]

theorem _extract_of_const (x s : List ℚ) (topN w : ℤ) (r : ℚ) (k : PKind) (c : ℚ)
    (hconst : ∀ v ∈ s, v = c)
    (hw : w ≤ 1 ∨ (s.length : ℤ) < (if w % 2 = 0 then w + 1 else w)) :
    _extract_peaks_from_signal x s topN w r k = [] := by
  have hs : _smooth s w = s := by
    by_cases h1 : w ≤ 1
    · exact _smooth_of_le_one s w h1
    · rcases hw with h | h
      · exact absurd h h1
      · simp only [_smooth, if_neg h1]
        rw [if_pos h]
  rw [_extract_peaks_from_signal, hs, _local_maxima_indices_const s c hconst]
  simp

set_option maxHeartbeats 1000000 in
/-- Shared concrete evaluation: the flat signal `y = [3,3,3,3]` with
`smooth_window = 3` produces two spurious peaks, because zero-padded boxcar
smoothing bends the constant signal into `[2,3,3,2]`. -/
theorem flat4_eval :
    extract_top_peaks [some 0, some 1, some 2, some 3] [some 3, some 3, some 3, some 3]
        5 .auto 3 (1/100) =
      [{ kind := .max, left := 1/2, center := 1, right := 5/2, prominence := 1 },
       { kind := .max, left := 1/2, center := 2, right := 5/2, prominence := 1 }] := by
  have hv : validPairs [some 0, some 1, some 2, some 3] [some 3, some 3, some 3, some 3] =
      [(0, 3), (1, 3), (2, 3), (3, 3)] := by
    simp [validPairs, finitePair]
  have hs : _smooth [3, 3, 3, 3] 3 = [2, 3, 3, 2] := by
    rw [_smooth_conv _ _ (by norm_num) (by norm_num) (by norm_num),
      show (3 : ℤ).toNat = 3 from rfl]
    norm_num [convolveSameBoxcar, convOut, getQ, List.range_succ]
  have hm : _local_maxima_indices [(2 : ℚ), 3, 3, 2] = [1, 2] := by
    norm_num [_local_maxima_indices, getQ, List.range_succ, List.filter]
  have hc1 : candOf [0, 1, 2, 3] [2, 3, 3, 2] (1/100) .max 1 =
      some (1, { kind := .max, left := 1/2, center := 1, right := 5/2, prominence := 1 }) := by
    norm_num [candOf, _nearest_local_min_left, nearestLocalMinLeftAux,
      _nearest_local_min_right, nearestLocalMinRightAux, _half_prominence_width,
      hpwLeftIdx, hpwRightIdx, hpwRightIdxAux, _interp_x_at_level, getQ]
  have hc2 : candOf [0, 1, 2, 3] [2, 3, 3, 2] (1/100) .max 2 =
      some (1, { kind := .max, left := 1/2, center := 2, right := 5/2, prominence := 1 }) := by
    norm_num [candOf, _nearest_local_min_left, nearestLocalMinLeftAux,
      _nearest_local_min_right, nearestLocalMinRightAux, _half_prominence_width,
      hpwLeftIdx, hpwRightIdx, hpwRightIdxAux, _interp_x_at_level, getQ]
  have hmax : _extract_peaks_from_signal [0, 1, 2, 3] [3, 3, 3, 3] 5 3 (1/100) .max =
      [{ kind := .max, left := 1/2, center := 1, right := 5/2, prominence := 1 },
       { kind := .max, left := 1/2, center := 2, right := 5/2, prominence := 1 }] := by
    rw [_extract_peaks_from_signal, hs, hm]
    norm_num [listMax, listMin, hc1, hc2, sortCandidatesDesc, List.insertionSort,
      List.orderedInsert, promDominates, List.filterMap_cons, List.filterMap_nil,
      show (5 : ℤ).toNat = 5 from rfl]
  have hsneg : _smooth [-3, -3, -3, -3] 3 = [-2, -3, -3, -2] := by
    rw [_smooth_conv _ _ (by norm_num) (by norm_num) (by norm_num),
      show (3 : ℤ).toNat = 3 from rfl]
    norm_num [convolveSameBoxcar, convOut, getQ, List.range_succ]
  have hmneg : _local_maxima_indices [(-2 : ℚ), -3, -3, -2] = [] := by
    norm_num [_local_maxima_indices, getQ, List.range_succ, List.filter]
  have hmin : _extract_peaks_from_signal [0, 1, 2, 3] [-3, -3, -3, -3] 5 3 (1/100) .min = [] := by
    rw [_extract_peaks_from_signal, hsneg, hmneg]
    norm_num
  rw [extract_top_peaks]
  norm_num [hv, promSum]
  rw [hmax, hmin]
  norm_num

/-- C3 counterexample: a zero-variance (flat) signal does NOT always yield an
empty result: `y = [3,3,3,3]` with `smooth_window = 3` returns two peaks,
because the zero-padded smoothing creates artificial edge slopes. -/
theorem flat_signal_counterexample :
    extract_top_peaks [some 0, some 1, some 2, some 3] [some 3, some 3, some 3, some 3]
        5 .auto 3 (1/100) ≠ [] := by
  rw [flat4_eval]
  simp

/-- C3 amended: `extract_top_peaks` (a total function, so it never raises)
returns the empty list for mismatched lengths, for fewer than 3 valid
(finite-paired) samples — which covers all-NaN input — and for flat signals
whenever smoothing leaves the signal unchanged (`window ≤ 1`, or the signal
is shorter than the window); a flat signal that does get smoothed may
produce spurious edge-artifact peaks. -/
theorem graceful_degradation_amended :
    (∀ (x y : List (Option ℚ)) (topN : ℤ) (mode : PMode) (w : ℤ) (r : ℚ),
      x.length ≠ y.length → extract_top_peaks x y topN mode w r = []) ∧
    (∀ (x y : List (Option ℚ)) (topN : ℤ) (mode : PMode) (w : ℤ) (r : ℚ),
      (validPairs x y).length < 3 → extract_top_peaks x y topN mode w r = []) ∧
    (∀ (x y : List (Option ℚ)) (topN : ℤ) (mode : PMode) (w : ℤ) (r : ℚ),
      (∀ v ∈ y, v = none) → extract_top_peaks x y topN mode w r = []) ∧
    (∀ (x y : List (Option ℚ)) (topN : ℤ) (mode : PMode) (w : ℤ) (r : ℚ) (c : ℚ),
      (∀ v ∈ y, v = some c) →
      w ≤ 1 ∨ (y.length : ℤ) < (if w % 2 = 0 then w + 1 else w) →
      extract_top_peaks x y topN mode w r = []) := by
  refine ⟨fun x y topN mode w r h => ?_, extract_top_peaks_of_few_valid,
    fun x y topN mode w r h => ?_, ?_⟩
  · rw [extract_top_peaks, if_pos (Or.inl h)]
  · refine extract_top_peaks_of_few_valid x y topN mode w r ?_
    have hnil : validPairs x y = [] := by
      rw [validPairs, List.filterMap_eq_nil_iff]
      intro p hp
      obtain ⟨a, b⟩ := p
      have hb := (List.of_mem_zip hp).2
      rw [h b hb]
      cases a <;> rfl
    rw [hnil]
    decide
  · intro x y topN mode w r c hconst hw
    by_cases h1 : x.length ≠ y.length ∨ x.length < 3
    · rw [extract_top_peaks, if_pos h1]
    · rw [extract_top_peaks, if_neg h1]
      by_cases h2 : ((validPairs x y).map Prod.fst).length < 3
      · simp only [if_pos h2]
      · simp only [if_neg h2]
        have hya : ∀ v ∈ (validPairs x y).map Prod.snd, v = c := by
          intro v hv
          obtain ⟨p, hp, rfl⟩ := List.mem_map.mp hv
          obtain ⟨pz, hpz, hfp⟩ := List.mem_filterMap.mp hp
          obtain ⟨a, b⟩ := pz
          have hb := (List.of_mem_zip hpz).2
          rw [hconst b hb] at hfp
          cases a with
          | none => exact absurd hfp (by simp [finitePair])
          | some a0 =>
            simp only [finitePair, Option.some.injEq] at hfp
            rw [← hfp]
        have hyneg : ∀ v ∈ ((validPairs x y).map Prod.snd).map Neg.neg, v = -c := by
          intro v hv
          obtain ⟨u, hu, rfl⟩ := List.mem_map.mp hv
          rw [hya u hu]
        have hlen2 : (validPairs x y).length ≤ y.length := by
          calc (validPairs x y).length ≤ (x.zip y).length := List.length_filterMap_le _ _
            _ ≤ y.length := by rw [List.length_zip]; omega
        have hw2 : ∀ (s : List ℚ), s.length = (validPairs x y).length →
            w ≤ 1 ∨ (s.length : ℤ) < (if w % 2 = 0 then w + 1 else w) := by
          intro s hsl
          rcases hw with h | h
          · exact Or.inl h
          · right
            rw [hsl]
            revert h
            generalize (if w % 2 = 0 then w + 1 else w) = effW
            intro h
            omega
        cases mode with
        | max => exact _extract_of_const _ _ _ _ _ _ c hya (hw2 _ (List.length_map _ _))
        | min =>
          exact _extract_of_const _ _ _ _ _ _ (-c) hyneg
            (hw2 _ (by rw [List.length_map, List.length_map]))
        | auto =>
          rw [_extract_of_const _ _ _ _ _ _ c hya (hw2 _ (List.length_map _ _)),
            _extract_of_const _ _ _ _ _ _ (-c) hyneg
              (hw2 _ (by rw [List.length_map, List.length_map]))]
          simp

/-- Witness for `graceful_degradation_amended`: mismatched lengths, an
all-`none` y-array, a flat signal with smoothing disabled, and a flat
signal of length 4 with the even window 4 (effective window 5 > 4, so
smoothing is skipped and the result is empty). -/
theorem graceful_degradation_amended_witness :
    extract_top_peaks [some 0] [] 5 .auto 7 (1/100) = [] ∧
    extract_top_peaks [some 0, some 1, some 2] [none, none, none] 5 .auto 7 (1/100) = [] ∧
    extract_top_peaks [some 0, some 1, some 2] [some 5, some 5, some 5] 5 .auto 1 (1/100) = [] ∧
    extract_top_peaks [some 0, some 1, some 2, some 3] [some 5, some 5, some 5, some 5]
        5 .auto 4 (1/100) = [] :=
  ⟨graceful_degradation_amended.1 _ _ _ _ _ _ (by decide),
    graceful_degradation_amended.2.2.1 _ _ _ _ _ _ (by decide),
    graceful_degradation_amended.2.2.2 _ _ _ _ _ _ 5 (by decide) (Or.inl (by decide)),
    graceful_degradation_amended.2.2.2 _ _ _ _ _ _ 5 (by decide) (Or.inr (by decide))⟩
